import Mathlib

/-!
# Spotify clone player script (`spotify/js/script.js`)

A shallow embedding of the player script: the display formatters
(`secondsToMinutesSeconds`, `getDisplayTitle`), the directory lister (`getSongs`),
the album catalogue loader (`displayAlbums`) and the transport handlers
(`playMusic`, the `previous`/`next`/`play` click handlers).

JavaScript strings are modelled as sequences of characters (`Str`).  The string
methods of the host library that the script calls (`split`, `join`, `replaceAll`,
`endsWith`, `includes`, `padStart`, `decodeURIComponent`, `indexOf`) are defined in the
namespace `JS` following ECMA-262, and so are the operations on Number values that
`secondsToMinutesSeconds` uses (division, `Math.floor`, `String`), computed on
integer-valued doubles with round-to-nearest-even.  The `src` property of the audio
element is read back through the host, which resolves the assigned address to an
absolute URL: the handlers take that read-back as a parameter, and the namespace `URL`
gives it for a document served from a given origin, following the URL Standard.
-/

/-- A JavaScript string, as its sequence of characters. -/
abbrev Str := List Char

namespace JS

/-- Scanner of `String.prototype.split` for a non-empty separator: `k` is the number of
characters of an already matched separator that are still to be skipped, `acc` holds the
characters of the current piece in reverse. -/
def splitAux (sep : Str) : Str → Nat → Str → List Str
  | [], _, acc => [acc.reverse]
  | _ :: cs, k + 1, acc => splitAux sep cs k acc
  | c :: cs, 0, acc =>
    if sep.isPrefixOf (c :: cs) then acc.reverse :: splitAux sep cs (sep.length - 1) []
    else splitAux sep cs 0 (c :: acc)

/-- The method `s.split(sep)`: the pieces of `s` between successive occurrences of `sep`,
found left to right without overlap; an empty separator splits into single characters. -/
def split (s sep : Str) : List Str :=
  if sep = [] then s.map (fun c => [c]) else splitAux sep s 0 []

/-- The method `parts.join(sep)`. -/
def join (parts : List Str) (sep : Str) : Str :=
  List.intercalate sep parts

/-- The method `xs.slice(0, -1)`: everything but the last element. -/
def sliceInit {α : Type} (xs : List α) : List α :=
  xs.dropLast

/-- The method `xs.pop()` used as an expression: the last element, `undefined` (here `none`)
on an empty array. -/
def pop {α : Type} (xs : List α) : Option α :=
  xs.getLast?

/-- Scanner of `String.prototype.replaceAll` for a non-empty pattern; `k` counts the
characters of a matched pattern still to be skipped. -/
def replaceAllAux (pat rep : Str) : Str → Nat → Str
  | [], _ => []
  | _ :: cs, k + 1 => replaceAllAux pat rep cs k
  | c :: cs, 0 =>
    if pat.isPrefixOf (c :: cs) then rep ++ replaceAllAux pat rep cs (pat.length - 1)
    else c :: replaceAllAux pat rep cs 0

/-- The method `s.replaceAll(pat, rep)` with a string pattern; the empty pattern matches
before every character and at the end. -/
def replaceAll (s pat rep : Str) : Str :=
  if pat = [] then (s.map (fun c => rep ++ [c])).flatten ++ rep else replaceAllAux pat rep s 0

/-- The method `s.endsWith(suffix)`. -/
def endsWith (s suffix : Str) : Bool :=
  suffix.isSuffixOf s

/-- The method `s.includes(part)`. -/
def includes (s part : Str) : Bool :=
  s.tails.any (fun t => part.isPrefixOf t)

/-- The method `s.padStart(n, "0")`. -/
def padStart (s : Str) (n : Nat) (fill : Char) : Str :=
  List.replicate (n - s.length) fill ++ s

/-- The number of halvings that bring `c` below `2 ^ 53`; the fuel `c` is always enough. -/
def excessBits : Nat → Nat → Nat
  | 0, _ => 0
  | fuel + 1, c => if c < 2 ^ 53 then 0 else excessBits fuel (c / 2) + 1

/-- The number of doublings that bring the quotient `num / den` to at least `2 ^ 52`; for
`num > 0` at most `52 + den` are needed. -/
def missingBits : Nat → Nat → Nat → Nat
  | 0, _, _ => 0
  | fuel + 1, num, den => if 2 ^ 52 ≤ num / den then 0 else missingBits fuel (2 * num) den + 1

/-- The integer nearest to `num / den`, the even one of two equally near. -/
def roundHalfEven (num den : Nat) : Nat :=
  if 2 * (num % den) < den then num / den
  else if den < 2 * (num % den) then num / den + 1
  else if (num / den) % 2 = 0 then num / den
  else num / den + 1

/-- The value `Math.floor(x)` for the double `x` nearest to `num / den` (round to nearest,
ties to even, 53 significant bits): `Math.floor(a / b)` for integer-valued doubles `a`,
`b`.  A result of `2 ^ 1024` or more stands for `Infinity`. -/
def floorOfNearestDouble (num den : Nat) : Nat :=
  if num = 0 then 0
  else if 2 ^ 53 ≤ num / den then
    roundHalfEven num (den * 2 ^ excessBits (num / den) (num / den)) *
      2 ^ excessBits (num / den) (num / den)
  else
    roundHalfEven (num * 2 ^ missingBits (53 + den) num den) den /
      2 ^ missingBits (53 + den) num den

/-- The Number value of a non-negative integer: the nearest double. -/
def nearestDouble (c : Nat) : Nat :=
  floorOfNearestDouble c 1

/-- For each number of significant digits from 1 to 17, the two decimals with that many
digits that enclose `v`, the nearer one first (of two equally near, the one with the even
last digit). -/
def decimalCandidates (v : Nat) : List Nat :=
  (List.range 17).flatMap (fun i =>
    let p := (Nat.toDigits 10 v).length - (i + 1)
    let lo := v / 10 ^ p * 10 ^ p
    let hi := lo + 10 ^ p
    if v - lo < hi - v then [lo, hi]
    else if hi - v < v - lo then [hi, lo]
    else if (v / 10 ^ p) % 2 = 0 then [lo, hi]
    else [hi, lo])

/-- The decimal with the fewest significant digits whose Number value is the double `v`
(the digits that `Number::toString` prints). -/
def shortestDecimal (v : Nat) : Nat :=
  ((decimalCandidates v).find? (fun c => nearestDouble c == v)).getD v

/-- Removes the zeros at the end of a numeral. -/
def stripTrailingZeros (ds : Str) : Str :=
  (ds.reverse.dropWhile (fun c => c == '0')).reverse

/-- The conversion `String(v)` of a finite non-negative integer-valued double: the
shortest digits that denote `v`, in full up to 21 digits and in exponential notation
above. -/
def numberToString (v : Nat) : Str :=
  let ds := Nat.toDigits 10 (shortestDecimal v)
  if ds.length ≤ 21 then ds
  else
    match stripTrailingZeros ds with
    | [] => ds
    | [d] => d :: ("e+".toList ++ Nat.toDigits 10 (ds.length - 1))
    | d :: rest => d :: '.' :: rest ++ ("e+".toList ++ Nat.toDigits 10 (ds.length - 1))

/-- Scanner of `Array.prototype.indexOf`: `k` is the position of the head of the list. -/
def indexOfAux (x : Str) : List Str → Nat → Int
  | [], _ => -1
  | y :: ys, k => if y = x then (k : Int) else indexOfAux x ys (k + 1)

/-- The method `xs.indexOf(x)`: the first position of `x`, or `-1`. -/
def indexOf (xs : List Str) (x : Str) : Int :=
  indexOfAux x xs 0

/-- The value of a hexadecimal digit. -/
def hexVal (c : Char) : Option Nat :=
  if '0' ≤ c ∧ c ≤ '9' then some (c.toNat - 48)
  else if 'a' ≤ c ∧ c ≤ 'f' then some (c.toNat - 87)
  else if 'A' ≤ c ∧ c ≤ 'F' then some (c.toNat - 55)
  else none

/-- One escape `%XY` at the head of the input: its octet and the rest. -/
def hexByte : Str → Option (Nat × Str)
  | '%' :: a :: b :: rest =>
    match hexVal a, hexVal b with
    | some x, some y => some (16 * x + y, rest)
    | _, _ => none
  | _ => none

/-- Reads `n` continuation octets `%XY`, each of the form `10xxxxxx`. -/
def contBytes : Nat → Str → Option (List Nat × Str)
  | 0, s => some ([], s)
  | n + 1, s =>
    match hexByte s with
    | none => none
    | some (b, rest) =>
      if b / 64 = 2 then
        match contBytes n rest with
        | none => none
        | some (bs, rest') => some (b :: bs, rest')
      else none

/-- The code point encoded by a UTF-8 lead octet and its continuation octets, when the
encoding is valid (shortest form, no surrogate, at most U+10FFFF). -/
def utf8CodePoint (b : Nat) (bs : List Nat) : Option Nat :=
  match bs with
  | [b1] =>
    let cp := (b % 32) * 64 + b1 % 64
    if 0x80 ≤ cp then some cp else none
  | [b1, b2] =>
    let cp := (b % 16) * 4096 + (b1 % 64) * 64 + b2 % 64
    if 0x800 ≤ cp ∧ ¬ (0xD800 ≤ cp ∧ cp ≤ 0xDFFF) then some cp else none
  | [b1, b2, b3] =>
    let cp := (b % 8) * 262144 + (b1 % 64) * 4096 + (b2 % 64) * 64 + b3 % 64
    if 0x10000 ≤ cp ∧ cp ≤ 0x10FFFF then some cp else none
  | _ => none

/-- The loop of the abstract operation `Decode` with an empty reserved set; `none` is a
thrown `URIError`.  Every step consumes at least one character, so a fuel of the length of
the input suffices. -/
def decodeAux : Nat → Str → Option Str
  | _, [] => some []
  | 0, _ :: _ => none
  | fuel + 1, c :: cs =>
    if c ≠ '%' then (decodeAux fuel cs).map (fun r => c :: r)
    else
      match hexByte (c :: cs) with
      | none => none
      | some (b, rest) =>
        if b < 0x80 then (decodeAux fuel rest).map (fun r => Char.ofNat b :: r)
        else
          let n := if b / 32 = 6 then 2 else if b / 16 = 14 then 3 else if b / 8 = 30 then 4 else 0
          if n = 0 then none
          else
            match contBytes (n - 1) rest with
            | none => none
            | some (bs, rest') =>
              match utf8CodePoint b bs with
              | none => none
              | some cp => (decodeAux fuel rest').map (fun r => Char.ofNat cp :: r)

/-- The function `decodeURIComponent(s)`; `none` is a thrown `URIError`. -/
def decodeURIComponent (s : Str) : Option Str :=
  decodeAux s.length s

end JS

namespace URL

/-- An upper-case hexadecimal digit. -/
def hexDigit (d : Nat) : Char :=
  if d < 10 then Char.ofNat (48 + d) else Char.ofNat (55 + d)

/-- The UTF-8 octets of a character. -/
def utf8Bytes (c : Char) : List Nat :=
  if c.toNat < 0x80 then [c.toNat]
  else if c.toNat < 0x800 then [0xC0 + c.toNat / 64, 0x80 + c.toNat % 64]
  else if c.toNat < 0x10000 then
    [0xE0 + c.toNat / 4096, 0x80 + c.toNat / 64 % 64, 0x80 + c.toNat % 64]
  else
    [0xF0 + c.toNat / 262144, 0x80 + c.toNat / 4096 % 64, 0x80 + c.toNat / 64 % 64,
      0x80 + c.toNat % 64]

/-- The UTF-8 percent-encoding of a character. -/
def percentEncode (c : Char) : Str :=
  (utf8Bytes c).flatMap (fun b => ['%', hexDigit (b / 16), hexDigit (b % 16)])

/-- The C0 control percent-encode set. -/
def inC0ControlSet (c : Char) : Bool :=
  decide (c.toNat ≤ 0x1F) || decide (0x7E < c.toNat)

/-- The fragment percent-encode set: also space, double quote, `<`, `>` and backtick. -/
def inFragmentSet (c : Char) : Bool :=
  inC0ControlSet c || [0x20, 0x22, 0x3C, 0x3E, 0x60].contains c.toNat

/-- The query percent-encode set: the C0 control set, space, double quote, `#`, `<`, `>`. -/
def inQuerySet (c : Char) : Bool :=
  inC0ControlSet c || [0x20, 0x22, 0x23, 0x3C, 0x3E].contains c.toNat

/-- The special-query percent-encode set: also the apostrophe. -/
def inSpecialQuerySet (c : Char) : Bool :=
  inQuerySet c || c.toNat == 0x27

/-- The path percent-encode set: the query set, `?`, `^`, backtick and the two braces. -/
def inPathSet (c : Char) : Bool :=
  inQuerySet c || [0x3F, 0x5E, 0x60, 0x7B, 0x7D].contains c.toNat

/-- Percent-encodes the characters of `s` that are in the given set. -/
def encodeWith (set : Char → Bool) (s : Str) : Str :=
  s.flatMap (fun c => if set c then percentEncode c else [c])

/-- A double-dot path segment. -/
def isDoubleDot (seg : Str) : Bool :=
  [["..".toList, ".%2e".toList, "%2e.".toList, "%2e%2e".toList]].flatten.contains
    (seg.map Char.toLower)

/-- A single-dot path segment. -/
def isSingleDot (seg : Str) : Bool :=
  [[".".toList, "%2e".toList]].flatten.contains (seg.map Char.toLower)

/-- The path state of the URL parser over the raw segments still to read: a double-dot
segment removes the last segment of the path, a single-dot segment adds nothing (each
leaves an empty segment when it is the last one), another segment is added encoded. -/
def pathState : List Str → List Str → List Str
  | [], path => path
  | seg :: rest, path =>
    if isDoubleDot seg then
      pathState rest (if rest.isEmpty then path.dropLast ++ [[]] else path.dropLast)
    else if isSingleDot seg then pathState rest (if rest.isEmpty then path ++ [[]] else path)
    else pathState rest (path ++ [encodeWith inPathSet seg])

/-- Removes leading and trailing C0 controls and spaces, then every tab and newline. -/
def cleanInput (address : Str) : Str :=
  (((address.dropWhile (fun c => decide (c.toNat ≤ 0x20))).reverse.dropWhile
    (fun c => decide (c.toNat ≤ 0x20))).reverse).filter
      (fun c => !([0x09, 0x0A, 0x0D].contains c.toNat))

/-- The `src` property read back after `address` was assigned, in a document served from
`origin` (such as `http://localhost:3000`): the serialisation of the URL that the address
resolves to.  Given for a path-absolute address (one slash, then a path, an optional
query and an optional fragment), which is what the script assigns; an address of another
form (a network-path reference names another host) is returned as it is. -/
def srcOf (origin address : Str) : Str :=
  match cleanInput address with
  | [] => address
  | first :: rest =>
    if first = '/' ∧ rest.head? ≠ some '/' ∧ rest.head? ≠ some (Char.ofNat 0x5C) then
      origin ++
        (pathState
          (JS.split (((rest.takeWhile (fun c => c ≠ '#')).takeWhile (fun c => c ≠ '?')).map
            (fun c => if c = Char.ofNat 0x5C then '/' else c)) "/".toList) []).flatMap
          (fun seg => '/' :: seg) ++
        (match (rest.takeWhile (fun c => c ≠ '#')).dropWhile (fun c => c ≠ '?') with
          | [] => []
          | _ :: query => '?' :: encodeWith inSpecialQuerySet query) ++
        (match rest.dropWhile (fun c => c ≠ '#') with
          | [] => []
          | _ :: fragment => '#' :: encodeWith inFragmentSet fragment)
    else address

end URL

/-! ## Utility functions -/

/-- Converts seconds to a formatted MM:SS string (script lines 13-20), for an argument
whose value is the integer `seconds` (its Number value is the nearest double). -/
def secondsToMinutesSeconds (seconds : Int) : Str :=
  if seconds < 0 then "00:00".toList
  else if 2 ^ 1024 ≤ JS.nearestDouble seconds.toNat then "Infinity:NaN".toList
  else
    let minutes := JS.floorOfNearestDouble (JS.nearestDouble seconds.toNat) 60
    let remainingSeconds := JS.nearestDouble seconds.toNat % 60
    JS.padStart (JS.numberToString minutes) 2 '0' ++ ":".toList ++
      JS.padStart (JS.numberToString remainingSeconds) 2 '0'

/-- Decodes a URI component and removes file extensions for display (script lines 25-28);
`none` when `decodeURIComponent` throws. -/
def getDisplayTitle (encodedString : Str) : Option Str :=
  let withoutExtension := JS.join (JS.sliceInit (JS.split encodedString ".".toList)) ".".toList
  JS.decodeURIComponent (JS.replaceAll withoutExtension "%20".toList " ".toList)

/-- The number a string of decimal digits denotes (used to read the fields of a formatted
duration back). -/
def decimalValue (cs : Str) : Nat :=
  cs.foldl (fun a c => 10 * a + (c.toNat - 48)) 0

/-- Every `%` of the string is directly followed by `20` (it occurs only inside `%20`). -/
def percentOnlyInSpace : Str → Bool
  | [] => true
  | c :: rest => (c != '%' || "20".toList.isPrefixOf rest) && percentOnlyInSpace rest

/-! ## Playback state -/

/-- The audio element `currentSong` (script line 4): `src` holds the address last
assigned to it (the content attribute), `paused` its paused flag.  The value the script
reads from the `src` property is the absolute URL this address resolves to. -/
structure Audio where
  src : Str
  paused : Bool
  deriving DecidableEq, Repr

namespace Audio

/-- Assignment to `src`: the attribute takes the assigned address; the element loads the
new resource, and its load algorithm leaves it paused. -/
def setSrc (_a : Audio) (url : Str) : Audio :=
  { src := url, paused := true }

/-- The method `play()`, called from a click handler (user activation present). -/
def play (a : Audio) : Audio :=
  { a with paused := false }

/-- The method `pause()`. -/
def pause (a : Audio) : Audio :=
  { a with paused := true }

end Audio

/-- What the element `.songList ul` shows. -/
inductive SongListView where
  | cleared
  | items (titles : List Str)
  | noSongs
  | error
  deriving DecidableEq, Repr

/-- The global variables of the script (lines 4-6) and the parts of the page it writes. -/
structure Player where
  currentSong : Audio
  songs : List Str
  currentFolder : Str
  playIcon : String
  songinfo : Str
  songtime : String
  songList : SongListView
  deriving DecidableEq, Repr

/-- Plays a specific song track from the current folder (script lines 36-51).  When
`getDisplayTitle` throws, the two assignments after it are not reached. -/
def playMusic (st : Player) (trackFilename : Str) (pause : Bool) : Player :=
  let st1 : Player :=
    { st with currentSong :=
        st.currentSong.setSrc ("/".toList ++ st.currentFolder ++ "/".toList ++ trackFilename) }
  let st2 : Player :=
    if !pause then { st1 with currentSong := st1.currentSong.play, playIcon := "img/pause.svg" }
    else { st1 with playIcon := "img/play.svg" }
  match getDisplayTitle trackFilename with
  | none => st2
  | some title => { st2 with songinfo := title, songtime := "00:00 / 00:00" }

/-- Gets the filename of the currently playing song from its src (script lines 56-58).
`srcURL` is the host's read-back of the `src` property: the absolute URL that the assigned
address resolves to. -/
def getCurrentSongFilename (srcURL : Str → Str) (st : Player) : Str :=
  (JS.pop (JS.split (srcURL st.currentSong.src) "/".toList)).getD []

/-! ## Playlist management -/

/-- The expression `anchor.href.split("/" + folderPath + "/").pop()` (script line 85); the
split by a non-empty separator is never empty, so `pop` always yields a string. -/
def trackFilename (folderPath href : Str) : Str :=
  (JS.pop (JS.split href ("/".toList ++ folderPath ++ "/".toList))).getD []

/-- The loop over the anchors (script lines 83-88): `songs` is the array being filled. -/
def collectSongs (folderPath : Str) : List Str → List Str → List Str
  | [], songs => songs
  | href :: rest, songs =>
    if JS.endsWith href ".mp3".toList then
      collectSongs folderPath rest (songs ++ [trackFilename folderPath href])
    else collectSongs folderPath rest songs

/-- The rendering loop `songs.forEach` (script lines 96-109): the display titles of the
list items, `none` when `getDisplayTitle` throws on some entry. -/
def renderSongList : List Str → List Str → Option (List Str)
  | [], items => some items
  | songFilename :: rest, items =>
    match getDisplayTitle songFilename with
    | none => none
    | some title => renderSongList rest (items ++ [title])

/-- Fetches MP3 songs for an album folder by parsing its directory listing (script lines
66-131).  The argument `listing` is the outcome of the request: `none` when the fetch is
rejected or the status is not a success, `some hrefs` with the `href` of every anchor of
the response in document order otherwise.  Returns the value of the call and the state. -/
def getSongs (st : Player) (folderPath : Str) (listing : Option (List Str)) :
    List Str × Player :=
  let st1 : Player := { st with currentFolder := folderPath, songList := .cleared }
  match listing with
  | none => ([], { st1 with songList := .error })
  | some hrefs =>
    let st2 : Player := { st1 with songs := collectSongs folderPath hrefs [] }
    if st2.songs.length = 0 then ([], { st2 with songList := .noSongs })
    else
      match renderSongList st2.songs [] with
      | none => ([], { st2 with songList := .error })
      | some titles => (st2.songs, { st2 with songList := .items titles })

/-! ## Album display -/

/-- The content of an `info.json`. -/
structure AlbumInfo where
  title : Str
  description : Str
  deriving DecidableEq, Repr

/-- One album card of `.cardContainer`. -/
structure Card where
  folder : Str
  title : Str
  description : Str
  deriving DecidableEq, Repr

/-- What the element `.cardContainer` shows. -/
inductive CardView where
  | cards (cs : List Card)
  | failed
  deriving DecidableEq, Repr

/-- The expression `href.split('/').filter(Boolean)`: the non-empty path pieces. -/
def pathPieces (href : Str) : List Str :=
  (JS.split href "/".toList).filter (fun piece => !piece.isEmpty)

/-- The test of script line 157 on the `href` of an anchor. -/
def isAlbumHref (href : Str) : Bool :=
  JS.includes href "/spotify/songs/".toList && JS.endsWith href "/".toList &&
    decide ((pathPieces href).length > 3)

/-- The loop over the anchors of the top-level listing (script lines 154-163). -/
def collectAlbumFolders : List Str → List Str → List Str
  | [], albumFolders => albumFolders
  | href :: rest, albumFolders =>
    if isAlbumHref href then
      match JS.pop (pathPieces href) with
      | some folderName =>
        if !folderName.isEmpty && !JS.includes folderName ".".toList then
          collectAlbumFolders rest (albumFolders ++ [folderName])
        else collectAlbumFolders rest albumFolders
      | none => collectAlbumFolders rest albumFolders
    else collectAlbumFolders rest albumFolders

/-- The card appended to `.cardContainer` for a folder and its metadata (script lines
174-186). -/
def albumCard (folder : Str) (infoData : AlbumInfo) : Card :=
  { folder := folder, title := infoData.title, description := infoData.description }

/-- The loop over the album folders (script lines 166-190).  `fetchInfo k folder` is the
outcome of the `info.json` request made for the `k`-th folder: `none` when the fetch is
rejected, the status is not a success or the body does not parse. -/
def cardLoop (fetchInfo : Nat → Str → Option AlbumInfo) : Nat → List Str → List Card → List Card
  | _, [], cards => cards
  | k, folder :: rest, cards =>
    match fetchInfo k folder with
    | some infoData =>
      cardLoop fetchInfo (k + 1) rest (cards ++ [albumCard folder infoData])
    | none => cardLoop fetchInfo (k + 1) rest cards

/-- Fetches and displays album cards on the main page (script lines 139-212); `listing`
is the outcome of the request for `/spotify/songs/`, as in `getSongs`. -/
def displayAlbums (listing : Option (List Str)) (fetchInfo : Nat → Str → Option AlbumInfo) :
    CardView :=
  match listing with
  | none => .failed
  | some hrefs => .cards (cardLoop fetchInfo 0 (collectAlbumFolders hrefs []) [])

/-- The click handler of an album card (script lines 195-205). -/
def cardClick (st : Player) (folder : Str) (listing : Option (List Str)) : Player :=
  let st1 := (getSongs st ("spotify/songs/".toList ++ folder) listing).2
  if st1.songs.length > 0 then playMusic st1 (st1.songs.headD []) true else st1

/-! ## Transport handlers -/

/-- The click handler of the play button (script lines 236-244). -/
def playClick (st : Player) : Player :=
  if st.currentSong.paused then
    { st with currentSong := st.currentSong.play, playIcon := "img/pause.svg" }
  else { st with currentSong := st.currentSong.pause, playIcon := "img/play.svg" }

/-- The click handler of the previous button (script lines 273-282). -/
def previousClick (srcURL : Str → Str) (st : Player) : Player :=
  let st1 : Player := { st with currentSong := st.currentSong.pause }
  let index := JS.indexOf st1.songs (getCurrentSongFilename srcURL st1)
  if index - 1 ≥ 0 then playMusic st1 (st1.songs.getD (index - 1).toNat []) false
  else st1

/-- The click handler of the next button (script lines 285-294). -/
def nextClick (srcURL : Str → Str) (st : Player) : Player :=
  let st1 : Player := { st with currentSong := st.currentSong.pause }
  let index := JS.indexOf st1.songs (getCurrentSongFilename srcURL st1)
  if index + 1 < (st1.songs.length : Int) then playMusic st1 (st1.songs.getD (index + 1).toNat []) false
  else st1

/-- A player in the middle of the one-track playlist of folder `spotify/songs/ncs`. -/
def examplePlayer : Player :=
  { currentSong := { src := "/spotify/songs/ncs/a.mp3".toList, paused := false }
    songs := ["a.mp3".toList]
    currentFolder := "spotify/songs/ncs".toList
    playIcon := "img/pause.svg"
    songinfo := "a".toList
    songtime := "00:00 / 00:00"
    songList := .items ["a".toList] }

/-- The read-back of the `src` property in a document served from
`http://localhost:3000`. -/
def exampleHost : Str → Str :=
  URL.srcOf "http://localhost:3000".toList

/-- A player on the first track of a two-track playlist of `spotify/songs/ncs` whose
first filename has braces, as `playMusic` leaves it. -/
def bracePlayer : Player :=
  { currentSong := { src := "/spotify/songs/ncs/\x7ba\x7d.mp3".toList, paused := false }
    songs := ["\x7ba\x7d.mp3".toList, "b.mp3".toList]
    currentFolder := "spotify/songs/ncs".toList
    playIcon := "img/pause.svg"
    songinfo := "\x7ba\x7d".toList
    songtime := "00:00 / 00:00"
    songList := .items ["\x7ba\x7d".toList, "b".toList] }

/-- A player on the second track of a three-track playlist of `spotify/songs/ncs`. -/
def exampleAlbumPlayer : Player :=
  { currentSong := { src := "/spotify/songs/ncs/b.mp3".toList, paused := false }
    songs := ["a.mp3".toList, "b.mp3".toList, "c.mp3".toList]
    currentFolder := "spotify/songs/ncs".toList
    playIcon := "img/pause.svg"
    songinfo := "b".toList
    songtime := "00:00 / 00:00"
    songList := .items ["a".toList, "b".toList, "c".toList] }

/-! ## Decimal numerals -/

theorem toDigitsCore_eq_append : ∀ (fuel n : Nat) (ds : List Char), n < fuel →
    Nat.toDigitsCore 10 fuel n ds = Nat.toDigits 10 n ++ ds := by
  intro fuel
  induction fuel using Nat.strong_induction_on with
  | _ fuel ih =>
    intro n ds h
    cases fuel with
    | zero => omega
    | succ f =>
      unfold Nat.toDigits
      simp only [Nat.toDigitsCore]
      by_cases h0 : n / 10 = 0
      · simp [h0]
      · simp only [h0, if_false]
        have h1 : n / 10 < f := by omega
        have h2 : n / 10 < n := by omega
        rw [ih f (by omega) (n / 10) _ h1, ih n (by omega) (n / 10) _ h2]
        simp

theorem toDigits_small (n : Nat) (h : n < 10) : Nat.toDigits 10 n = [Nat.digitChar n] := by
  have h0 : n / 10 = 0 := by omega
  have h1 : n % 10 = n := by omega
  simp [Nat.toDigits, Nat.toDigitsCore, h0, h1]

theorem toDigits_step (n : Nat) (h : 10 ≤ n) :
    Nat.toDigits 10 n = Nat.toDigits 10 (n / 10) ++ [Nat.digitChar (n % 10)] := by
  have h0 : n / 10 ≠ 0 := by omega
  have h2 : n / 10 < n := by omega
  conv_lhs => unfold Nat.toDigits
  simp only [Nat.toDigitsCore, h0, if_false]
  exact toDigitsCore_eq_append n (n / 10) _ h2

theorem digitChar_isDigit (k : Nat) (h : k < 10) : (Nat.digitChar k).isDigit = true := by
  interval_cases k <;> decide

theorem digitChar_value (k : Nat) (h : k < 10) : (Nat.digitChar k).toNat - 48 = k := by
  interval_cases k <;> decide

theorem decimalValue_append_single (cs : Str) (c : Char) :
    decimalValue (cs ++ [c]) = 10 * decimalValue cs + (c.toNat - 48) := by
  simp [decimalValue, List.foldl_append]

theorem decimalValue_toDigits (n : Nat) : decimalValue (Nat.toDigits 10 n) = n := by
  induction n using Nat.strong_induction_on with
  | _ n ih =>
    by_cases h : n < 10
    · rw [toDigits_small n h]
      simp [decimalValue, digitChar_value n h]
    · rw [toDigits_step n (by omega), decimalValue_append_single, ih (n / 10) (by omega),
        digitChar_value _ (Nat.mod_lt _ (by decide))]
      omega

theorem toDigits_all_isDigit (n : Nat) : (Nat.toDigits 10 n).all Char.isDigit = true := by
  induction n using Nat.strong_induction_on with
  | _ n ih =>
    by_cases h : n < 10
    · rw [toDigits_small n h]
      simp [digitChar_isDigit n h]
    · rw [toDigits_step n (by omega), List.all_append, ih (n / 10) (by omega)]
      simp [digitChar_isDigit _ (Nat.mod_lt n (by decide : 0 < 10))]

theorem toDigits_length_pos (n : Nat) : 1 ≤ (Nat.toDigits 10 n).length := by
  by_cases h : n < 10
  · rw [toDigits_small n h]; simp
  · rw [toDigits_step n (by omega)]; simp

theorem toDigits_length_two (n : Nat) (h : 10 ≤ n) : 2 ≤ (Nat.toDigits 10 n).length := by
  rw [toDigits_step n h, List.length_append]
  have := toDigits_length_pos (n / 10)
  simp
  omega

theorem toDigits_length_three (n : Nat) (h : 100 ≤ n) : 3 ≤ (Nat.toDigits 10 n).length := by
  rw [toDigits_step n (by omega), List.length_append]
  have := toDigits_length_two (n / 10) (by omega)
  simp
  omega

theorem toDigits_length_lt_hundred (n : Nat) (h : n < 100) : (Nat.toDigits 10 n).length ≤ 2 := by
  by_cases h1 : n < 10
  · rw [toDigits_small n h1]; simp
  · rw [toDigits_step n (by omega), toDigits_small (n / 10) (by omega)]; simp

/-! ## Padding -/

theorem padStart_length (s : Str) (n : Nat) (fill : Char) :
    (JS.padStart s n fill).length = max n s.length := by
  simp only [JS.padStart, List.length_append, List.length_replicate]
  omega

theorem decimalValue_zeros_append (k : Nat) (cs : Str) :
    decimalValue (List.replicate k '0' ++ cs) = decimalValue cs := by
  induction k with
  | zero => simp
  | succ k ih =>
    have h : decimalValue ('0' :: (List.replicate k '0' ++ cs)) =
        decimalValue (List.replicate k '0' ++ cs) := by
      simp [decimalValue]
    simpa [List.replicate_succ] using h.trans ih

theorem padStart_all_isDigit (cs : Str) (n : Nat) (h : cs.all Char.isDigit = true) :
    (JS.padStart cs n '0').all Char.isDigit = true := by
  simp only [JS.padStart, List.all_append, h, Bool.and_true]
  simp only [List.all_eq_true]
  intro c hc
  rw [List.eq_of_mem_replicate hc]
  decide

/-! ## Doubles below `2 ^ 53` -/

theorem roundHalfEven_one (n : Nat) : JS.roundHalfEven n 1 = n := by
  simp [JS.roundHalfEven, Nat.mod_one]

theorem nearestDouble_of_lt (c : Nat) (h : c < 2 ^ 53) : JS.nearestDouble c = c := by
  unfold JS.nearestDouble JS.floorOfNearestDouble
  by_cases h0 : c = 0
  · simp [h0]
  · have h1 : ¬ (2 ^ 53 ≤ c / 1) := by rw [Nat.div_one]; omega
    rw [if_neg h0, if_neg h1, roundHalfEven_one]
    exact Nat.mul_div_cancel c (Nat.pos_pow_of_pos _ (by decide))

theorem le_div_pow_excessBits : ∀ (fuel c : Nat), 2 ^ 52 ≤ c →
    2 ^ 52 ≤ c / 2 ^ JS.excessBits fuel c := by
  intro fuel
  induction fuel with
  | zero =>
    intro c h
    show 2 ^ 52 ≤ c / 2 ^ 0
    rw [Nat.pow_zero, Nat.div_one]
    exact h
  | succ fuel ih =>
    intro c h
    by_cases hc : c < 2 ^ 53
    · rw [JS.excessBits, if_pos hc, Nat.pow_zero, Nat.div_one]
      exact h
    · have h2 : 2 ^ 52 ≤ c / 2 := by omega
      have := ih (c / 2) h2
      have e : 2 ^ (JS.excessBits fuel (c / 2) + 1) = 2 * 2 ^ JS.excessBits fuel (c / 2) := by
        rw [Nat.pow_succ, Nat.mul_comm]
      rw [JS.excessBits, if_neg hc, e, ← Nat.div_div_eq_div_mul]
      exact this

theorem le_roundHalfEven (num den : Nat) : num / den ≤ JS.roundHalfEven num den := by
  unfold JS.roundHalfEven
  split
  · exact Nat.le_refl _
  · split
    · exact Nat.le_succ _
    · split
      · exact Nat.le_refl _
      · exact Nat.le_succ _

theorem le_nearestDouble (c : Nat) (h : 2 ^ 53 ≤ c) : 2 ^ 53 ≤ JS.nearestDouble c := by
  unfold JS.nearestDouble JS.floorOfNearestDouble
  have h0 : c ≠ 0 := by
    intro e
    rw [e] at h
    exact absurd h (by decide)
  have h1 : 2 ^ 53 ≤ c / 1 := by rw [Nat.div_one]; exact h
  rw [if_neg h0, if_pos h1, Nat.div_one, Nat.one_mul]
  obtain ⟨f, hf⟩ : ∃ f, c = f + 1 := ⟨c - 1, by omega⟩
  have he : 1 ≤ JS.excessBits c c := by
    rw [hf]
    have : ¬ (f + 1 < 2 ^ 53) := by omega
    rw [JS.excessBits, if_neg this]
    exact Nat.le_add_left _ _
  have hm := le_div_pow_excessBits c c (by omega)
  have hr := le_roundHalfEven c (2 ^ JS.excessBits c c)
  have hp : 2 ≤ 2 ^ JS.excessBits c c := by
    calc 2 = 2 ^ 1 := by decide
      _ ≤ 2 ^ JS.excessBits c c := Nat.pow_le_pow_right (by decide) he
  calc 2 ^ 53 = 2 ^ 52 * 2 := by decide
    _ ≤ JS.roundHalfEven c (2 ^ JS.excessBits c c) * 2 ^ JS.excessBits c c :=
      Nat.mul_le_mul (Nat.le_trans hm hr) hp

theorem shortestDecimal_of_lt (v : Nat) (h : v < 2 ^ 53) : JS.shortestDecimal v = v := by
  unfold JS.shortestDecimal
  cases hf : (JS.decimalCandidates v).find? (fun c => JS.nearestDouble c == v) with
  | none => rfl
  | some c =>
    have hc : JS.nearestDouble c = v := by simpa using List.find?_some hf
    show c = v
    by_cases hlt : c < 2 ^ 53
    · rw [nearestDouble_of_lt c hlt] at hc
      exact hc
    · have := le_nearestDouble c (by omega)
      omega

theorem toDigits_length_le : ∀ (e n : Nat), 0 < e → n < 10 ^ e →
    (Nat.toDigits 10 n).length ≤ e := by
  intro e
  induction e with
  | zero => intro n h; omega
  | succ e ih =>
    intro n _ hn
    by_cases h : n < 10
    · rw [toDigits_small n h]
      simp
    · have he : 0 < e := by
        rcases Nat.eq_zero_or_pos e with h0 | h0
        · rw [h0] at hn
          simp at hn
          omega
        · exact h0
      rw [toDigits_step n (by omega), List.length_append]
      have hdiv : n / 10 < 10 ^ e := by
        rw [Nat.pow_succ] at hn
        exact Nat.div_lt_of_lt_mul (by rw [Nat.mul_comm]; exact hn)
      have := ih (n / 10) he hdiv
      simp
      omega

theorem numberToString_of_lt (v : Nat) (h : v < 2 ^ 53) :
    JS.numberToString v = Nat.toDigits 10 v := by
  have hlen : (Nat.toDigits 10 v).length ≤ 21 :=
    toDigits_length_le 21 v (by decide) (Nat.lt_of_lt_of_le h (by decide))
  simp only [JS.numberToString, shortestDecimal_of_lt v h, hlen, if_true]

theorem roundHalfEven_sixty_bounds (n : Nat) :
    60 * JS.roundHalfEven n 60 ≤ n + 30 ∧ n ≤ 60 * JS.roundHalfEven n 60 + 30 := by
  unfold JS.roundHalfEven
  split
  · omega
  · split
    · omega
    · split <;> omega

theorem missingBits_ge : ∀ (j fuel num den : Nat), j ≤ fuel →
    (∀ i, i < j → 2 ^ i * num / den < 2 ^ 52) →
    ∃ k, JS.missingBits fuel num den = j + k := by
  intro j
  induction j with
  | zero => intro fuel num den _ _; exact ⟨_, (Nat.zero_add _).symm⟩
  | succ j ih =>
    intro fuel num den hf h
    cases fuel with
    | zero => omega
    | succ fuel =>
      have h0 : ¬ (2 ^ 52 ≤ num / den) := by
        have := h 0 (Nat.succ_pos _)
        simp at this
        omega
      obtain ⟨k, hk⟩ := ih fuel (2 * num) den (by omega) (by
        intro i hi
        have := h (i + 1) (by omega)
        rw [Nat.pow_succ, Nat.mul_assoc] at this
        exact this)
      exact ⟨k, by simp only [JS.missingBits, h0, if_false, hk]; omega⟩

theorem roundHalfEven_mul_div (s P : Nat) (hP : 32 ≤ P) :
    JS.roundHalfEven (s * P) 60 / P = s / 60 := by
  obtain ⟨h1, h2⟩ := roundHalfEven_sixty_bounds (s * P)
  have hs : s = 60 * (s / 60) + s % 60 := (Nat.div_add_mod s 60).symm
  have hr : s % 60 < 60 := Nat.mod_lt _ (by decide)
  have hmul : s * P = 60 * (s / 60 * P) + s % 60 * P := by
    conv_lhs => rw [hs]
    rw [Nat.add_mul, Nat.mul_assoc]
  have hrP : s % 60 * P ≤ 59 * P := Nat.mul_le_mul_right P (by omega)
  have hpos : 0 < P := by omega
  apply Nat.div_eq_of_lt_le
  · omega
  · rw [Nat.add_mul]
    omega

theorem floorOfNearestDouble_sixty (s : Nat) (h : s < 2 ^ 53) :
    JS.floorOfNearestDouble s 60 = s / 60 := by
  unfold JS.floorOfNearestDouble
  by_cases h0 : s = 0
  · simp [h0]
  · have h1 : ¬ (2 ^ 53 ≤ s / 60) := by omega
    rw [if_neg h0, if_neg h1]
    obtain ⟨k, hk⟩ := missingBits_ge 5 (53 + 60) s 60 (by decide) (by
      intro i hi
      interval_cases i <;> omega)
    rw [hk]
    apply roundHalfEven_mul_div
    rw [Nat.pow_add]
    have : 1 ≤ 2 ^ k := Nat.pos_pow_of_pos _ (by decide)
    calc 32 = 2 ^ 5 * 1 := by decide
      _ ≤ 2 ^ 5 * 2 ^ k := Nat.mul_le_mul_left _ this

/-- C5 (amended): for an integer number of seconds `s`, `secondsToMinutesSeconds s` is
`"00:00"` when `s < 0`; when `0 ≤ s < 2 ^ 53` it is `M ++ ":" ++ SS`, where `SS` is exactly
two decimal digits of value `s mod 60` (below 60) and `M` is the decimal numeral of
`s / 60` left-padded with zeros to at least two digits: all digits, of value `s / 60`, of
length two exactly when `s < 6000` and longer above.  In particular 75 gives `"01:15"`
and -5 gives `"00:00"`. -/
theorem secondsToMinutesSeconds_format (s : Int) :
    (s < 0 → secondsToMinutesSeconds s = "00:00".toList) ∧
    (0 ≤ s → s < 2 ^ 53 → ∃ M SS : Str,
      secondsToMinutesSeconds s = M ++ ":".toList ++ SS ∧
      SS.length = 2 ∧ SS.all Char.isDigit = true ∧
      (decimalValue SS : Int) = s % 60 ∧ decimalValue SS < 60 ∧
      M = List.replicate (2 - (Nat.toDigits 10 (s / 60).toNat).length) '0' ++
            Nat.toDigits 10 (s / 60).toNat ∧
      M.all Char.isDigit = true ∧ (decimalValue M : Int) = s / 60 ∧
      2 ≤ M.length ∧ (M.length = 2 ↔ s < 6000)) ∧
    secondsToMinutesSeconds 75 = "01:15".toList ∧
    secondsToMinutesSeconds (-5) = "00:00".toList := by
  have key : ∀ n : Nat, n < 2 ^ 53 → secondsToMinutesSeconds (n : Int) =
      JS.padStart (Nat.toDigits 10 (n / 60)) 2 '0' ++ ":".toList ++
        JS.padStart (Nat.toDigits 10 (n % 60)) 2 '0' := by
    intro n hn
    have hneg : ¬ ((n : Int) < 0) := by omega
    have hnat : ((n : Int)).toNat = n := by omega
    have hfin : ¬ (2 ^ 1024 ≤ n) :=
      Nat.not_le.mpr (Nat.lt_of_lt_of_le hn (Nat.pow_le_pow_right (by decide) (by decide)))
    have hq : n / 60 < 2 ^ 53 := by omega
    have hr : n % 60 < 2 ^ 53 := by omega
    unfold secondsToMinutesSeconds
    rw [if_neg hneg, hnat, nearestDouble_of_lt n hn, if_neg hfin]
    simp only [floorOfNearestDouble_sixty n hn, numberToString_of_lt _ hq,
      numberToString_of_lt _ hr]
  refine ⟨fun h => by simp [secondsToMinutesSeconds, h], fun h hlt => ?_, ?_, ?_⟩
  · obtain ⟨n, rfl⟩ := Int.eq_ofNat_of_zero_le h
    have hn : n < 2 ^ 53 := by omega
    have hmin : ((n : Int) / 60).toNat = n / 60 := by omega
    refine ⟨JS.padStart (Nat.toDigits 10 (n / 60)) 2 '0',
      JS.padStart (Nat.toDigits 10 (n % 60)) 2 '0', key n hn, ?_, ?_, ?_, ?_, ?_, ?_, ?_, ?_, ?_⟩
    · rw [padStart_length]
      have h1 := toDigits_length_lt_hundred (n % 60) (by omega)
      omega
    · exact padStart_all_isDigit _ _ (toDigits_all_isDigit _)
    · rw [JS.padStart, decimalValue_zeros_append, decimalValue_toDigits]; omega
    · rw [JS.padStart, decimalValue_zeros_append, decimalValue_toDigits]; omega
    · rw [hmin]; rfl
    · exact padStart_all_isDigit _ _ (toDigits_all_isDigit _)
    · rw [JS.padStart, decimalValue_zeros_append, decimalValue_toDigits]; omega
    · rw [padStart_length]; omega
    · rw [padStart_length]
      constructor
      · intro hl
        by_contra hs
        have := toDigits_length_three (n / 60) (by omega)
        omega
      · intro hs
        have := toDigits_length_lt_hundred (n / 60) (by omega)
        omega
  · rw [show (75 : Int) = ((75 : Nat) : Int) from rfl, key 75 (by decide)]
    decide
  · rfl

/-- Witness for C5 (amended) at 75 seconds and at -5 seconds. -/
theorem secondsToMinutesSeconds_format_witness :
    secondsToMinutesSeconds (-5) = "00:00".toList ∧
    ∃ M SS : Str, secondsToMinutesSeconds 75 = M ++ ":".toList ++ SS ∧
      SS.length = 2 ∧ (decimalValue SS : Int) = 75 % 60 ∧ (decimalValue M : Int) = 75 / 60 ∧
      M.length = 2 := by
  refine ⟨(secondsToMinutesSeconds_format (-5)).1 (by decide), ?_⟩
  obtain ⟨M, SS, h1, h2, _, h4, _, _, _, h8, _, h10⟩ :=
    (secondsToMinutesSeconds_format 75).2.1 (by decide) (by decide)
  exact ⟨M, SS, h1, h2, h4, h8, h10.2 (by decide)⟩

/-- C5 as stated fails: 60000000000000000000000 seconds (a double) are `1e21` minutes,
which `String` prints as `1e+21`, so the result is `1e+21:00`, whose minutes field is
not a decimal numeral. -/
theorem secondsToMinutesSeconds_not_always_numeral :
    ¬ (∀ s : Int, 0 ≤ s → ∃ M SS : Str,
        secondsToMinutesSeconds s = M ++ ":".toList ++ SS ∧
        SS.length = 2 ∧ M.all Char.isDigit = true) := by
  intro h
  obtain ⟨M, SS, h1, h2, h3⟩ := h 60000000000000000000000 (by decide)
  have e : secondsToMinutesSeconds 60000000000000000000000 = "1e+21:00".toList := by
    decide!
  rw [e] at h1
  have hlen : M.length = 5 := by
    have := congrArg List.length h1
    simp only [List.length_append, h2] at this
    have h8 : "1e+21:00".toList.length = 8 := rfl
    have h1' : ":".toList.length = 1 := rfl
    omega
  have hM : M = List.take 5 "1e+21:00".toList := by
    rw [h1, ← hlen, List.append_assoc, List.take_left']
    rfl
  rw [hM] at h3
  revert h3
  decide

/-! ## The split scanner -/

theorem splitAux_ne_nil (sep : Str) : ∀ (s : Str) (k : Nat) (acc : Str),
    JS.splitAux sep s k acc ≠ [] := by
  intro s
  induction s with
  | nil => intro k acc; simp [JS.splitAux]
  | cons c cs ih =>
    intro k acc
    cases k with
    | succ k => simpa [JS.splitAux] using ih k acc
    | zero =>
      simp only [JS.splitAux]
      split
      · simp
      · exact ih 0 (c :: acc)

theorem splitAux_skip (sep : Str) : ∀ (xs ys acc : Str),
    JS.splitAux sep (xs ++ ys) xs.length acc = JS.splitAux sep ys 0 acc := by
  intro xs
  induction xs with
  | nil => intro ys acc; rfl
  | cons x xs ih => intro ys acc; simpa [JS.splitAux] using ih ys acc

theorem isPrefixOf_cons_of_not_mem (c : Char) (sep' : Str) (x : Char) (ys : Str)
    (h : c ∉ x :: ys) : (c :: sep').isPrefixOf (x :: ys) = false := by
  have hx : c ≠ x := fun e => h (by simp [e])
  simp [List.isPrefixOf, hx]

theorem splitAux_nomatch (c : Char) (sep' : Str) : ∀ (ys acc : Str), c ∉ ys →
    JS.splitAux (c :: sep') ys 0 acc = [acc.reverse ++ ys] := by
  intro ys
  induction ys with
  | nil => intro acc _; simp [JS.splitAux]
  | cons y ys ih =>
    intro acc h
    have h' : c ∉ ys := fun hm => h (List.mem_cons_of_mem _ hm)
    simp only [JS.splitAux, isPrefixOf_cons_of_not_mem c sep' y ys h]
    simpa using ih (y :: acc) h'

theorem splitAux_single_append (c : Char) (b : Str) (hb : c ∉ b) : ∀ (a acc : Str),
    JS.splitAux [c] (a ++ c :: b) 0 acc = JS.splitAux [c] a 0 acc ++ [b] := by
  intro a
  induction a with
  | nil =>
    intro acc
    have h := splitAux_nomatch c [] b [] hb
    simp [JS.splitAux, List.isPrefixOf, h]
  | cons x a ih =>
    intro acc
    by_cases hx : c = x
    · subst hx
      simp [JS.splitAux, List.isPrefixOf, ih]
    · simp [JS.splitAux, List.isPrefixOf, hx, ih]

theorem intercalate_cons_of_ne_nil (sep p : Str) (ps : List Str) (h : ps ≠ []) :
    List.intercalate sep (p :: ps) = p ++ sep ++ List.intercalate sep ps := by
  cases ps with
  | nil => exact absurd rfl h
  | cons q qs => simp [List.intercalate, List.intersperse]

theorem intercalate_splitAux_single (c : Char) : ∀ (s acc : Str),
    List.intercalate [c] (JS.splitAux [c] s 0 acc) = acc.reverse ++ s := by
  intro s
  induction s with
  | nil => intro acc; simp [JS.splitAux, List.intercalate, List.intersperse]
  | cons x s ih =>
    intro acc
    by_cases hx : c = x
    · subst hx
      simp only [JS.splitAux, List.isPrefixOf, beq_self_eq_true, Bool.and_self, if_true,
        List.length_singleton, Nat.sub_self]
      rw [intercalate_cons_of_ne_nil _ _ _ (splitAux_ne_nil _ _ _ _), ih]
      simp
    · have : (c == x) = false := by simp [hx]
      simp only [JS.splitAux, List.isPrefixOf, this, Bool.false_and]
      simpa using ih (x :: acc)

/-! ## The replace scanner and the decoder -/

theorem replaceAllAux_skip (pat rep : Str) : ∀ (xs ys : Str),
    JS.replaceAllAux pat rep (xs ++ ys) xs.length = JS.replaceAllAux pat rep ys 0 := by
  intro xs
  induction xs with
  | nil => intro ys; rfl
  | cons x xs ih => intro ys; simpa [JS.replaceAllAux] using ih ys

theorem replaceAllAux_nomatch_append (c : Char) (pat' rep : Str) : ∀ (p rest : Str), c ∉ p →
    JS.replaceAllAux (c :: pat') rep (p ++ rest) 0 =
      p ++ JS.replaceAllAux (c :: pat') rep rest 0 := by
  intro p
  induction p with
  | nil => intro rest _; rfl
  | cons y p ih =>
    intro rest h
    have h' : c ∉ p := fun hm => h (List.mem_cons_of_mem _ hm)
    have hy : c ≠ y := fun e => h (by simp [e])
    simp [JS.replaceAllAux, List.isPrefixOf, hy, ih rest h']

theorem replaceAllAux_match (c : Char) (pat' rep rest : Str) :
    JS.replaceAllAux (c :: pat') rep ((c :: pat') ++ rest) 0 =
      rep ++ JS.replaceAllAux (c :: pat') rep rest 0 := by
  have hp : (c :: pat').isPrefixOf (c :: (pat' ++ rest)) = true := by
    simp [List.isPrefixOf]
  have hs := replaceAllAux_skip (c :: pat') rep pat' rest
  show JS.replaceAllAux (c :: pat') rep (c :: (pat' ++ rest)) 0 = _
  simp only [JS.replaceAllAux, hp, if_true, List.length_cons, Nat.add_sub_cancel, hs]

theorem replaceAllAux_intercalate (c : Char) (pat' rep : Str) : ∀ (parts : List Str),
    (∀ p ∈ parts, c ∉ p) →
    JS.replaceAllAux (c :: pat') rep (List.intercalate (c :: pat') parts) 0 =
      List.intercalate rep parts := by
  intro parts
  induction parts with
  | nil => intro _; simp [List.intercalate, List.intersperse, JS.replaceAllAux]
  | cons p ps ih =>
    intro h
    cases ps with
    | nil =>
      have := replaceAllAux_nomatch_append c pat' rep p [] (h p (by simp))
      simpa [List.intercalate, List.intersperse, JS.replaceAllAux] using this
    | cons q qs =>
      rw [intercalate_cons_of_ne_nil (c :: pat') p (q :: qs) (by simp),
        intercalate_cons_of_ne_nil rep p (q :: qs) (by simp),
        List.append_assoc, replaceAllAux_nomatch_append c pat' rep p _ (h p (by simp)),
        replaceAllAux_match, ih (fun r hr => h r (List.mem_cons_of_mem _ hr))]
      simp

theorem decodeAux_of_no_percent : ∀ (s : Str) (fuel : Nat), s.length ≤ fuel → '%' ∉ s →
    JS.decodeAux fuel s = some s := by
  intro s
  induction s with
  | nil => intro fuel _ _; cases fuel <;> rfl
  | cons c cs ih =>
    intro fuel hf h
    cases fuel with
    | zero => simp at hf
    | succ fuel =>
      have hc : c ≠ '%' := fun e => h (by simp [e])
      have h' : '%' ∉ cs := fun hm => h (List.mem_cons_of_mem _ hm)
      simp [JS.decodeAux, hc, ih fuel (by simpa using hf) h']

theorem decodeURIComponent_of_no_percent (s : Str) (h : '%' ∉ s) :
    JS.decodeURIComponent s = some s :=
  decodeAux_of_no_percent s s.length (Nat.le_refl _) h

theorem not_mem_intercalate (c : Char) (sep : Str) (hsep : c ∉ sep) : ∀ (parts : List Str),
    (∀ p ∈ parts, c ∉ p) → c ∉ List.intercalate sep parts := by
  intro parts
  induction parts with
  | nil => intro _; simp [List.intercalate, List.intersperse]
  | cons p ps ih =>
    intro h
    cases ps with
    | nil => simpa [List.intercalate, List.intersperse] using h p (by simp)
    | cons q qs =>
      rw [intercalate_cons_of_ne_nil sep p (q :: qs) (by simp)]
      have h1 := h p (by simp)
      have h2 := ih (fun r hr => h r (List.mem_cons_of_mem _ hr))
      simp only [List.mem_append, not_or]
      exact ⟨⟨h1, hsep⟩, h2⟩

/-- The display title of `name ++ "." ++ ext`, for `name` made of `%`-free parts joined
by `%20` and an extension without a dot. -/
theorem getDisplayTitle_of_parts (parts : List Str) (ext : Str)
    (hparts : ∀ p ∈ parts, '%' ∉ p) (hext : '.' ∉ ext) :
    getDisplayTitle (List.intercalate "%20".toList parts ++ '.' :: ext) =
      some (List.intercalate " ".toList parts) := by
  have e1 : ".".toList = ['.'] := rfl
  have e2 : "%20".toList = '%' :: ['2', '0'] := rfl
  have e3 : " ".toList = [' '] := rfl
  have hne : ¬ (['.'] = ([] : Str)) := by simp
  have hne2 : ¬ ('%' :: ['2', '0'] = ([] : Str)) := by simp
  simp only [getDisplayTitle, JS.split, JS.sliceInit, JS.join, JS.replaceAll, e1, e2, e3, hne,
    hne2, if_false]
  rw [splitAux_single_append '.' ext hext, List.dropLast_concat, intercalate_splitAux_single,
    List.reverse_nil, List.nil_append, replaceAllAux_intercalate '%' ['2', '0'] [' '] parts hparts]
  exact decodeURIComponent_of_no_percent _
    (not_mem_intercalate '%' [' '] (by decide) parts hparts)

/-! ## Decomposition of a file name -/

theorem exists_last_occurrence (c : Char) : ∀ (l : Str), c ∈ l →
    ∃ a b, l = a ++ c :: b ∧ c ∉ b := by
  intro l
  induction l with
  | nil => intro h; simp at h
  | cons x t ih =>
    intro h
    by_cases ht : c ∈ t
    · obtain ⟨a, b, hab, hb⟩ := ih ht
      exact ⟨x :: a, b, by simp [hab], hb⟩
    · have hx : c = x := by
        rcases List.mem_cons.mp h with h1 | h1
        · exact h1
        · exact absurd h1 ht
      exact ⟨[], t, by simp [hx], ht⟩

theorem percentOnlyInSpace_of_append_dot (ext : Str) : ∀ (name : Str),
    percentOnlyInSpace (name ++ '.' :: ext) = true → percentOnlyInSpace name = true := by
  intro name
  induction name with
  | nil => intro _; rfl
  | cons c t ih =>
    intro h
    simp only [List.cons_append, percentOnlyInSpace, Bool.and_eq_true, Bool.or_eq_true] at h ⊢
    refine ⟨?_, ih h.2⟩
    rcases h.1 with h1 | h1
    · exact Or.inl h1
    · right
      have e : "20".toList = ['2', '0'] := rfl
      rw [e] at h1 ⊢
      match t, h1 with
      | [], h1 => simp [List.isPrefixOf] at h1
      | [x], h1 => simp [List.isPrefixOf] at h1
      | x :: y :: r, h1 => simpa [List.isPrefixOf] using h1

theorem parts_of_percentOnlyInSpace : ∀ (n : Nat) (s : Str), s.length ≤ n →
    percentOnlyInSpace s = true →
    ∃ parts : List Str, parts ≠ [] ∧ (∀ p ∈ parts, '%' ∉ p) ∧
      s = List.intercalate "%20".toList parts := by
  intro n
  induction n using Nat.strong_induction_on with
  | _ n ih =>
    intro s hn hs
    match s, hn, hs with
    | [], _, _ => exact ⟨[[]], by simp, by simp, by simp [List.intercalate, List.intersperse]⟩
    | c :: t, hn, hs =>
      simp only [percentOnlyInSpace, Bool.and_eq_true, Bool.or_eq_true] at hs
      simp only [List.length_cons] at hn
      by_cases hc : c = '%'
      · subst hc
        have h1 : "20".toList.isPrefixOf t = true := by
          rcases hs.1 with h | h
          · simp at h
          · exact h
        have e : "20".toList = ['2', '0'] := rfl
        rw [e] at h1
        match t, h1, hs.2, hn with
        | [], h1, _, _ => simp [List.isPrefixOf] at h1
        | [x], h1, _, _ => simp [List.isPrefixOf] at h1
        | x :: y :: r, h1, h2, hn =>
          simp only [List.isPrefixOf, Bool.and_eq_true, beq_iff_eq, Bool.and_true] at h1
          obtain ⟨hx, hy⟩ := h1
          subst hx; subst hy
          simp only [percentOnlyInSpace, Bool.and_eq_true] at h2
          simp only [List.length_cons] at hn
          obtain ⟨parts, hne, hp, hr⟩ := ih r.length (by omega) r (Nat.le_refl _) h2.2.2
          refine ⟨[] :: parts, by simp, ?_, ?_⟩
          · intro p hmem
            rcases List.mem_cons.mp hmem with h | h
            · simp [h]
            · exact hp p h
          · rw [intercalate_cons_of_ne_nil _ _ _ hne, ← hr]
            rfl
      · obtain ⟨parts, hne, hp, hr⟩ := ih t.length (by omega) t (Nat.le_refl _) hs.2
        match parts, hne, hp, hr with
        | p :: ps, _, hp, hr =>
          refine ⟨(c :: p) :: ps, by simp, ?_, ?_⟩
          · intro q hmem
            rcases List.mem_cons.mp hmem with h | h
            · subst h
              have := hp p (by simp)
              simp only [List.mem_cons, not_or]
              exact ⟨fun e => hc e.symm, this⟩
            · exact hp q (List.mem_cons_of_mem _ h)
          · rw [hr]
            cases ps <;> simp [List.intercalate, List.intersperse]

/-- C6: for every filename that contains a `.` and in which `%` occurs only inside `%20`,
`getDisplayTitle` returns the part `name` of the filename before its last `.` (the filename is
`name ++ "." ++ ext` with no `.` in `ext`) with every `%20` replaced by a space: `name` is
the `%`-free pieces `parts` joined by `%20`, and the result is the same pieces joined by a
space.  In particular `My%20Song.mp3` gives `My Song` and `a.b.mp3` gives `a.b`. -/
theorem getDisplayTitle_strips_last_extension :
    (∀ filename : Str, '.' ∈ filename → percentOnlyInSpace filename = true →
      ∃ (name ext : Str) (parts : List Str),
        filename = name ++ ".".toList ++ ext ∧ '.' ∉ ext ∧
        name = List.intercalate "%20".toList parts ∧ (∀ p ∈ parts, '%' ∉ p) ∧
        getDisplayTitle filename = some (List.intercalate " ".toList parts)) ∧
    getDisplayTitle "My%20Song.mp3".toList = some "My Song".toList ∧
    getDisplayTitle "a.b.mp3".toList = some "a.b".toList := by
  refine ⟨?_, by decide, by decide⟩
  intro filename hdot hpct
  obtain ⟨name, ext, hsplit, hext⟩ := exists_last_occurrence '.' filename hdot
  subst hsplit
  have hname := percentOnlyInSpace_of_append_dot ext name hpct
  obtain ⟨parts, _, hparts, hjoin⟩ :=
    parts_of_percentOnlyInSpace name.length name (Nat.le_refl _) hname
  refine ⟨name, ext, parts, by simp, hext, hjoin, hparts, ?_⟩
  rw [hjoin]
  exact getDisplayTitle_of_parts parts ext hparts hext

/-- Witness for C6 at the filename `My%20Song.mp3`. -/
theorem getDisplayTitle_strips_last_extension_witness :
    ∃ (name ext : Str) (parts : List Str),
      "My%20Song.mp3".toList = name ++ ".".toList ++ ext ∧ '.' ∉ ext ∧
      name = List.intercalate "%20".toList parts ∧ (∀ p ∈ parts, '%' ∉ p) ∧
      getDisplayTitle "My%20Song.mp3".toList = some (List.intercalate " ".toList parts) :=
  getDisplayTitle_strips_last_extension.1 "My%20Song.mp3".toList (by decide) (by decide)

/-- A name without a dot has a single piece, which `slice(0, -1)` drops: the title is empty. -/
theorem getDisplayTitle_of_no_dot (s : Str) (h : '.' ∉ s) : getDisplayTitle s = some [] := by
  have e1 : ".".toList = ['.'] := rfl
  have hne : ¬ (['.'] = ([] : Str)) := by simp
  simp only [getDisplayTitle, JS.split, JS.sliceInit, JS.join, e1, hne, if_false,
    splitAux_nomatch '.' [] s [] h]
  rfl

/-- C7: the formatter is not idempotent on a decoded title without extension: the
extensionless name `My Song` (no `%`, no `.`) is turned into the empty string. -/
theorem getDisplayTitle_no_extension_gives_empty :
    '%' ∉ "My Song".toList ∧ '.' ∉ "My Song".toList ∧
    getDisplayTitle "My Song".toList = some [] ∧
    getDisplayTitle "My Song".toList ≠ some "My Song".toList := by
  decide

/-! ## Transport -/

theorem playMusic_currentSong (st : Player) (track : Str) :
    (playMusic st track false).currentSong =
      { src := "/".toList ++ st.currentFolder ++ "/".toList ++ track, paused := false } := by
  unfold playMusic
  cases getDisplayTitle track <;> rfl

theorem playMusic_songs (st : Player) (track : Str) (pause : Bool) :
    (playMusic st track pause).songs = st.songs := by
  unfold playMusic
  cases getDisplayTitle track <;> cases pause <;> rfl

theorem indexOfAux_getElem_of_nodup : ∀ (songs : List Str), songs.Nodup →
    ∀ (i k : Nat) (hi : i < songs.length), JS.indexOfAux songs[i] songs k = ((k + i : Nat) : Int) := by
  intro songs
  induction songs with
  | nil => intro _ i k hi; simp at hi
  | cons y ys ih =>
    intro h i k hi
    have hy : y ∉ ys := (List.nodup_cons.mp h).1
    cases i with
    | zero => simp [JS.indexOfAux]
    | succ j =>
      have hj : j < ys.length := by simpa using hi
      have hne : y ≠ ys[j] := fun e => hy (e ▸ List.getElem_mem hj)
      simp only [List.getElem_cons_succ, JS.indexOfAux, hne, if_false]
      rw [ih (List.nodup_cons.mp h).2 j (k + 1) hj]
      congr 1
      omega

theorem indexOf_getElem_of_nodup (songs : List Str) (h : songs.Nodup) (i : Nat)
    (hi : i < songs.length) : JS.indexOf songs songs[i] = (i : Int) := by
  simp [JS.indexOf, indexOfAux_getElem_of_nodup songs h i 0 hi]

theorem currentIndex_of_src (srcURL : Str → Str) (st : Player) (i : Nat)
    (hi : i < st.songs.length) (hnodup : st.songs.Nodup)
    (hback : ∀ f ∈ st.songs,
      (JS.pop (JS.split (srcURL ("/".toList ++ st.currentFolder ++ "/".toList ++ f))
        "/".toList)).getD [] = f)
    (paused : Bool)
    (hsrc : st.currentSong.src = "/".toList ++ st.currentFolder ++ "/".toList ++ st.songs[i]) :
    JS.indexOf st.songs
      (getCurrentSongFilename srcURL
        { st with currentSong := { st.currentSong with paused := paused } })
      = (i : Int) := by
  simp only [getCurrentSongFilename, hsrc]
  rw [hback _ (List.getElem_mem hi)]
  exact indexOf_getElem_of_nodup st.songs hnodup i hi

theorem nextClick_eq (srcURL : Str → Str) (st : Player) (i : Nat) (hi : i < st.songs.length)
    (hnodup : st.songs.Nodup)
    (hback : ∀ f ∈ st.songs,
      (JS.pop (JS.split (srcURL ("/".toList ++ st.currentFolder ++ "/".toList ++ f))
        "/".toList)).getD [] = f)
    (hsrc : st.currentSong.src = "/".toList ++ st.currentFolder ++ "/".toList ++ st.songs[i]) :
    nextClick srcURL st =
      if i + 1 < st.songs.length then
        playMusic { st with currentSong := st.currentSong.pause } (st.songs.getD (i + 1) []) false
      else { st with currentSong := st.currentSong.pause } := by
  have hidx := currentIndex_of_src srcURL st i hi hnodup hback true hsrc
  unfold nextClick
  simp only [Audio.pause, hidx]
  have e : ((i : Int) + 1).toNat = i + 1 := by omega
  by_cases h : i + 1 < st.songs.length
  · have h' : (i : Int) + 1 < (st.songs.length : Int) := by omega
    simp only [h, h', if_true, e]
  · have h' : ¬ ((i : Int) + 1 < (st.songs.length : Int)) := by omega
    simp only [h, h', if_false]

theorem previousClick_eq (srcURL : Str → Str) (st : Player) (i : Nat)
    (hi : i < st.songs.length) (hnodup : st.songs.Nodup)
    (hback : ∀ f ∈ st.songs,
      (JS.pop (JS.split (srcURL ("/".toList ++ st.currentFolder ++ "/".toList ++ f))
        "/".toList)).getD [] = f)
    (hsrc : st.currentSong.src = "/".toList ++ st.currentFolder ++ "/".toList ++ st.songs[i]) :
    previousClick srcURL st =
      if 1 ≤ i then
        playMusic { st with currentSong := st.currentSong.pause } (st.songs.getD (i - 1) []) false
      else { st with currentSong := st.currentSong.pause } := by
  have hidx := currentIndex_of_src srcURL st i hi hnodup hback true hsrc
  unfold previousClick
  simp only [Audio.pause, hidx]
  have e : ((i : Int) - 1).toNat = i - 1 := by omega
  by_cases h : 1 ≤ i
  · have h' : (i : Int) - 1 ≥ 0 := by omega
    simp only [h, h', if_true, e]
  · have h' : ¬ ((i : Int) - 1 ≥ 0) := by omega
    simp only [h, h', if_false]

/-- C8 (amended): `srcURL` is the read-back of the `src` property by the host.  In a
playlist of pairwise distinct filenames that the host reads back unchanged (the last
`/`-separated piece of the URL of `"/" ++ currentFolder ++ "/" ++ f` is `f` itself, so `f`
has no `/` and nothing the URL parser rewrites), with the track at index `i` current
(audio src `"/" ++ currentFolder ++ "/" ++ songs[i]`): when `i + 1 < length` the `next`
handler makes `songs[i+1]` the current track and starts playback, when `1 ≤ i` the
`previous` handler makes `songs[i-1]` the current track and starts playback, so that the
index of the current track moves by exactly one; at the last (first) index `next`
(`previous`) keeps the current track, it does not wrap around. -/
theorem next_previous_move_by_one (srcURL : Str → Str) (st : Player) (i : Nat)
    (hi : i < st.songs.length) (hnodup : st.songs.Nodup)
    (hback : ∀ f ∈ st.songs,
      (JS.pop (JS.split (srcURL ("/".toList ++ st.currentFolder ++ "/".toList ++ f))
        "/".toList)).getD [] = f)
    (hsrc : st.currentSong.src =
      "/".toList ++ st.currentFolder ++ "/".toList ++ st.songs[i]) :
    (∀ h : i + 1 < st.songs.length,
      (nextClick srcURL st).currentSong.src =
        "/".toList ++ st.currentFolder ++ "/".toList ++ st.songs[i + 1] ∧
      (nextClick srcURL st).currentSong.paused = false ∧
      JS.indexOf (nextClick srcURL st).songs
        (getCurrentSongFilename srcURL (nextClick srcURL st)) = (i : Int) + 1) ∧
    (1 ≤ i →
      (previousClick srcURL st).currentSong.src =
        "/".toList ++ st.currentFolder ++ "/".toList ++ st.songs[i - 1] ∧
      (previousClick srcURL st).currentSong.paused = false ∧
      JS.indexOf (previousClick srcURL st).songs
        (getCurrentSongFilename srcURL (previousClick srcURL st)) = (i : Int) - 1) ∧
    (i + 1 = st.songs.length → (nextClick srcURL st).currentSong.src = st.currentSong.src) ∧
    (i = 0 → (previousClick srcURL st).currentSong.src = st.currentSong.src) ∧
    (nextClick srcURL st).songs = st.songs ∧ (previousClick srcURL st).songs = st.songs := by
  have hn := nextClick_eq srcURL st i hi hnodup hback hsrc
  have hp := previousClick_eq srcURL st i hi hnodup hback hsrc
  refine ⟨?_, ?_, ?_, ?_, ?_, ?_⟩
  · intro h
    rw [hn, if_pos h]
    have hget : st.songs.getD (i + 1) [] = st.songs[i + 1] := by
      simp [List.getD_eq_getElem?_getD, List.getElem?_eq_getElem h]
    rw [hget]
    have hcs := playMusic_currentSong { st with currentSong := st.currentSong.pause }
      st.songs[i + 1]
    have hsongs := playMusic_songs { st with currentSong := st.currentSong.pause }
      st.songs[i + 1] false
    refine ⟨by rw [hcs], by rw [hcs], ?_⟩
    simp only [getCurrentSongFilename, hcs, hsongs]
    rw [hback _ (List.getElem_mem h)]
    simpa using indexOf_getElem_of_nodup st.songs hnodup (i + 1) h
  · intro h
    have hlt : i - 1 < st.songs.length := by omega
    rw [hp, if_pos h]
    have hget : st.songs.getD (i - 1) [] = st.songs[i - 1] := by
      simp [List.getD_eq_getElem?_getD, List.getElem?_eq_getElem hlt]
    rw [hget]
    have hcs := playMusic_currentSong { st with currentSong := st.currentSong.pause }
      st.songs[i - 1]
    have hsongs := playMusic_songs { st with currentSong := st.currentSong.pause }
      st.songs[i - 1] false
    refine ⟨by rw [hcs], by rw [hcs], ?_⟩
    simp only [getCurrentSongFilename, hcs, hsongs]
    rw [hback _ (List.getElem_mem hlt)]
    have := indexOf_getElem_of_nodup st.songs hnodup (i - 1) hlt
    rw [this]
    omega
  · intro h
    rw [hn, if_neg (by omega)]
    rfl
  · intro h
    rw [hp, if_neg (by omega)]
    rfl
  · rw [hn]
    split
    · exact playMusic_songs _ _ _
    · rfl
  · rw [hp]
    split
    · exact playMusic_songs _ _ _
    · rfl

/-- C8 as stated fails: in a document served from `http://localhost:3000`, with the
distinct slash-free filenames `{a}.mp3` and `b.mp3` and the first one current, the `src`
property reads back as `.../%7Ba%7D.mp3`, `indexOf` gives -1 and the `next` handler loads
`songs[0]` again instead of `b.mp3`. -/
theorem next_not_always_next_track :
    ¬ (∀ (st : Player) (i : Nat), i + 1 < st.songs.length → st.songs.Nodup →
        (∀ f ∈ st.songs, '/' ∉ f) →
        st.currentSong.src =
          "/".toList ++ st.currentFolder ++ "/".toList ++ st.songs.getD i [] →
        (nextClick exampleHost st).currentSong.src =
          "/".toList ++ st.currentFolder ++ "/".toList ++ st.songs.getD (i + 1) []) := by
  intro h
  have h1 := h bracePlayer 0 (by decide) (by decide) (by decide) (by decide)
  revert h1
  decide

/-! ## Track identity -/

theorem isPrefixOf_append_of_length_le : ∀ (l a b : Str), l.length ≤ a.length →
    l.isPrefixOf (a ++ b) = l.isPrefixOf a := by
  intro l
  induction l with
  | nil => intro a b _; simp [List.isPrefixOf]
  | cons c l ih =>
    intro a b h
    cases a with
    | nil => simp at h
    | cons y a =>
      have h' : l.length ≤ a.length := by simpa using h
      simp [List.isPrefixOf, ih a b h']

theorem isPrefixOf_self_append : ∀ (l b : Str), l.isPrefixOf (l ++ b) = true := by
  intro l
  induction l with
  | nil => intro b; simp [List.isPrefixOf]
  | cons c l ih => intro b; simp [List.isPrefixOf, ih b]

theorem splitAux_getLast_of_single_occurrence (F N : Str) (hN : '/' ∉ N) :
    ∀ (P acc : Str),
      (∀ t ∈ (P ++ '/' :: F).tails, ('/' :: (F ++ ['/'])).isPrefixOf t = false) →
      (JS.splitAux ('/' :: (F ++ ['/'])) (P ++ '/' :: (F ++ ['/']) ++ N) 0 acc).getLast? =
        some N := by
  intro P
  induction P with
  | nil =>
    intro acc _
    have hp : ('/' :: (F ++ ['/'])).isPrefixOf ('/' :: ((F ++ ['/']) ++ N)) = true :=
      isPrefixOf_self_append ('/' :: (F ++ ['/'])) N
    have hs := splitAux_skip ('/' :: (F ++ ['/'])) (F ++ ['/']) N []
    have hn := splitAux_nomatch '/' (F ++ ['/']) N [] hN
    show (JS.splitAux ('/' :: (F ++ ['/'])) ('/' :: ((F ++ ['/']) ++ N)) 0 acc).getLast? = some N
    simp only [JS.splitAux, hp, if_true, List.length_cons, Nat.add_sub_cancel, hs, hn]
    simp
  | cons x P ih =>
    intro acc h
    have hfalse : ('/' :: (F ++ ['/'])).isPrefixOf (x :: (P ++ '/' :: F)) = false :=
      h _ (by simp)
    have hlen : ('/' :: (F ++ ['/'])).length ≤ (x :: (P ++ '/' :: F)).length := by
      simp only [List.length_cons, List.length_append, List.length_nil]
      omega
    have hfalse' : ('/' :: (F ++ ['/'])).isPrefixOf (x :: (P ++ '/' :: (F ++ ['/']) ++ N))
        = false := by
      have e : x :: (P ++ '/' :: (F ++ ['/']) ++ N) = (x :: (P ++ '/' :: F)) ++ ('/' :: N) := by
        simp
      rw [e, isPrefixOf_append_of_length_le _ _ _ hlen]
      exact hfalse
    have hrest : ∀ t ∈ (P ++ '/' :: F).tails, ('/' :: (F ++ ['/'])).isPrefixOf t = false := by
      intro t ht
      apply h
      show t ∈ (x :: (P ++ '/' :: F)).tails
      rw [List.tails_cons]
      exact List.mem_cons_of_mem _ ht
    show (JS.splitAux ('/' :: (F ++ ['/'])) (x :: (P ++ '/' :: (F ++ ['/']) ++ N)) 0 acc).getLast?
      = some N
    simp only [JS.splitAux, hfalse']
    exact ih (x :: acc) hrest

theorem trackFilename_of_single_occurrence (F P N : Str) (hN : '/' ∉ N)
    (hocc : JS.includes (P ++ "/".toList ++ F) ("/".toList ++ F ++ "/".toList) = false) :
    trackFilename F (P ++ "/".toList ++ F ++ "/".toList ++ N) = N := by
  have hsep : "/".toList ++ F ++ "/".toList = '/' :: (F ++ ['/']) := rfl
  have hpre : P ++ "/".toList ++ F = P ++ '/' :: F := by
    rw [List.append_assoc]; rfl
  have href : P ++ "/".toList ++ F ++ "/".toList ++ N = P ++ '/' :: (F ++ ['/']) ++ N := by
    rw [hpre]
    simp
  have hne : ¬ ('/' :: (F ++ ['/']) = ([] : Str)) := by simp
  rw [hsep, hpre] at hocc
  simp only [JS.includes, List.any_eq_false] at hocc
  have hocc' : ∀ t ∈ (P ++ '/' :: F).tails, ('/' :: (F ++ ['/'])).isPrefixOf t = false := by
    intro t ht
    exact Bool.eq_false_iff.mpr (hocc t ht)
  have h := splitAux_getLast_of_single_occurrence F N hN P [] hocc'
  unfold trackFilename JS.pop JS.split
  rw [hsep, href, if_neg hne, h]
  rfl

theorem endsWith_append (s suffix pre : Str) (h : JS.endsWith s suffix = true) :
    JS.endsWith (pre ++ s) suffix = true := by
  simp only [JS.endsWith, List.isSuffixOf_iff_suffix] at h ⊢
  exact h.trans (List.suffix_append pre s)

/-- C9 (amended): for a folder path `F`, a prefix `P` and a file name `N` that ends with
`.mp3` and contains no `/`, when the separator `"/" ++ F ++ "/"` does not occur in the
reference before its final occurrence (it is not included in `P ++ "/" ++ F`), the track
identity extracted from the reference `P ++ "/" ++ F ++ "/" ++ N` is exactly `N`, and
`getSongs` lists exactly `N` for that reference. -/
theorem trackFilename_is_name_after_folder (F P N : Str) (hN : '/' ∉ N)
    (hmp3 : JS.endsWith N ".mp3".toList = true)
    (hocc : JS.includes (P ++ "/".toList ++ F) ("/".toList ++ F ++ "/".toList) = false) :
    trackFilename F (P ++ "/".toList ++ F ++ "/".toList ++ N) = N ∧
    collectSongs F [P ++ "/".toList ++ F ++ "/".toList ++ N] [] = [N] := by
  have h := trackFilename_of_single_occurrence F P N hN hocc
  refine ⟨h, ?_⟩
  simp only [collectSongs, endsWith_append N _ _ hmp3, if_true, h]
  rfl

/-- Witness for C9 (amended) at `http://h/spotify/songs/ncs/a.mp3`. -/
theorem trackFilename_is_name_after_folder_witness :
    trackFilename "spotify/songs/ncs".toList
        ("http://h".toList ++ "/".toList ++ "spotify/songs/ncs".toList ++ "/".toList ++
          "a.mp3".toList) = "a.mp3".toList ∧
    collectSongs "spotify/songs/ncs".toList
        ["http://h".toList ++ "/".toList ++ "spotify/songs/ncs".toList ++ "/".toList ++
          "a.mp3".toList] [] = ["a.mp3".toList] :=
  trackFilename_is_name_after_folder "spotify/songs/ncs".toList "http://h".toList
    "a.mp3".toList (by decide) (by decide) (by decide)

/-- C9 as stated fails: with folder `spotify/songs/ncs` and the prefix
`http://h/spotify/songs/ncs`, the name `a.mp3` ends with `.mp3` and has no `/`, but the
identity extracted from the reference is `spotify/songs/ncs/a.mp3`. -/
theorem trackFilename_not_always_name :
    ¬ (∀ F P N : Str, '/' ∉ N → JS.endsWith N ".mp3".toList = true →
        trackFilename F (P ++ "/".toList ++ F ++ "/".toList ++ N) = N) := by
  intro h
  have h1 := h "spotify/songs/ncs".toList "http://h/spotify/songs/ncs".toList "a.mp3".toList
    (by decide) (by decide)
  revert h1
  decide

/-! ## Directory lister -/

theorem collectSongs_eq (folderPath : Str) : ∀ (hrefs songs : List Str),
    collectSongs folderPath hrefs songs =
      songs ++ (hrefs.filter (fun href => JS.endsWith href ".mp3".toList)).map
        (trackFilename folderPath) := by
  intro hrefs
  induction hrefs with
  | nil => intro songs; simp [collectSongs]
  | cons href rest ih =>
    intro songs
    by_cases h : JS.endsWith href ".mp3".toList = true
    · simp only [collectSongs, h, if_true, ih, List.filter_cons, List.map_cons,
        List.append_assoc, List.singleton_append]
    · simp only [collectSongs, h, if_false, ih, List.filter_cons, Bool.false_eq_true]

theorem renderSongList_isSome : ∀ (songs items : List Str),
    (∀ f ∈ songs, getDisplayTitle f ≠ none) → ∃ titles, renderSongList songs items = some titles := by
  intro songs
  induction songs with
  | nil => intro items _; exact ⟨items, rfl⟩
  | cons f rest ih =>
    intro items h
    have hf := h f (by simp)
    cases hd : getDisplayTitle f with
    | none => exact absurd hd hf
    | some title =>
      obtain ⟨titles, ht⟩ := ih (items ++ [title]) (fun g hg => h g (List.mem_cons_of_mem _ hg))
      exact ⟨titles, by simp [renderSongList, hd, ht]⟩

/-- C3 (amended): for every folder path and every sequence of hyperlink references of a
successfully fetched listing in which the display title of every `.mp3` entry can be
decoded, `getSongs` returns (and stores in `songs`) exactly one entry, the track filename,
for each reference that ends with `.mp3` and none for any other reference, in document
order, so the length of the result is the number of `.mp3` references; when no reference
ends with `.mp3` it returns the empty sequence, sets the playlist to empty and shows the
"no songs" item, not the error item. -/
theorem getSongs_lists_mp3_references (st : Player) (folderPath : Str) (hrefs : List Str)
    (hdec : ∀ href ∈ hrefs, JS.endsWith href ".mp3".toList = true →
      getDisplayTitle (trackFilename folderPath href) ≠ none) :
    (getSongs st folderPath (some hrefs)).1 =
      (hrefs.filter (fun href => JS.endsWith href ".mp3".toList)).map (trackFilename folderPath) ∧
    (getSongs st folderPath (some hrefs)).2.songs = (getSongs st folderPath (some hrefs)).1 ∧
    (getSongs st folderPath (some hrefs)).1.length =
      hrefs.countP (fun href => JS.endsWith href ".mp3".toList) ∧
    ((∀ href ∈ hrefs, JS.endsWith href ".mp3".toList = false) →
      (getSongs st folderPath (some hrefs)).1 = [] ∧
      (getSongs st folderPath (some hrefs)).2.songs = [] ∧
      (getSongs st folderPath (some hrefs)).2.songList = SongListView.noSongs) := by
  have hcol := collectSongs_eq folderPath hrefs []
  rw [List.nil_append] at hcol
  have hdec' : ∀ f ∈ collectSongs folderPath hrefs [], getDisplayTitle f ≠ none := by
    intro f hf
    rw [hcol] at hf
    obtain ⟨href, hmem, rfl⟩ := List.mem_map.mp hf
    have hm := List.mem_filter.mp hmem
    exact hdec href hm.1 hm.2
  obtain ⟨titles, ht⟩ := renderSongList_isSome (collectSongs folderPath hrefs []) [] hdec'
  have hval : (getSongs st folderPath (some hrefs)).1 = collectSongs folderPath hrefs [] ∧
      (getSongs st folderPath (some hrefs)).2.songs = collectSongs folderPath hrefs [] := by
    by_cases h0 : (collectSongs folderPath hrefs []).length = 0
    · have hnil : collectSongs folderPath hrefs [] = [] := List.length_eq_zero.mp h0
      simp [getSongs, hnil]
    · simp [getSongs, h0, ht]
  refine ⟨by rw [hval.1, hcol], by rw [hval.1, hval.2], ?_, ?_⟩
  · rw [hval.1, hcol, List.length_map, List.countP_eq_length_filter]
  · intro hnone
    have hnil : collectSongs folderPath hrefs [] = [] := by
      rw [hcol]
      have : hrefs.filter (fun href => JS.endsWith href ".mp3".toList) = [] := by
        rw [List.filter_eq_nil_iff]
        intro href hmem hq
        have hq' : JS.endsWith href ".mp3".toList = true := hq
        rw [hnone href hmem] at hq'
        exact Bool.false_ne_true hq'
      rw [this]
      rfl
    refine ⟨by rw [hval.1, hnil], by rw [hval.2, hnil], ?_⟩
    simp [getSongs, hnil]

/-- Witness for C3 (amended): a listing of folder `spotify/songs/ncs` with three `.mp3`
references and two other references. -/
theorem getSongs_lists_mp3_references_witness :
    (getSongs examplePlayer "spotify/songs/ncs".toList
      (some ["http://h/spotify/songs/ncs/a.mp3".toList,
        "http://h/spotify/songs/ncs/cover.jpg".toList,
        "http://h/spotify/songs/ncs/b%20c.mp3".toList,
        "http://h/spotify/songs/ncs/info.json".toList,
        "http://h/spotify/songs/ncs/d.mp3".toList])).1.length = 3 := by
  have h := (getSongs_lists_mp3_references examplePlayer "spotify/songs/ncs".toList
    ["http://h/spotify/songs/ncs/a.mp3".toList,
      "http://h/spotify/songs/ncs/cover.jpg".toList,
      "http://h/spotify/songs/ncs/b%20c.mp3".toList,
      "http://h/spotify/songs/ncs/info.json".toList,
      "http://h/spotify/songs/ncs/d.mp3".toList] (by decide)).2.2.1
  rw [h]
  decide

/-- C3 as stated fails: the listing of `spotify/songs/ncs` with the single reference
`http://h/spotify/songs/ncs/a%zz.mp3` is fetched successfully and has one `.mp3`
reference, but `getSongs` returns the empty sequence (the display title of `a%zz.mp3`
cannot be decoded, and the error of the rendering loop is caught). -/
theorem getSongs_length_not_always_count :
    ¬ (∀ (st : Player) (folderPath : Str) (hrefs : List Str),
        (getSongs st folderPath (some hrefs)).1.length =
          hrefs.countP (fun href => JS.endsWith href ".mp3".toList)) := by
  intro h
  have h1 := h examplePlayer "spotify/songs/ncs".toList
    ["http://h/spotify/songs/ncs/a%zz.mp3".toList]
  revert h1
  decide

/-! ## Album catalogue -/

theorem cardLoop_eq (fetchInfo : Nat → Str → Option AlbumInfo) : ∀ (folders : List Str)
    (k : Nat) (cards : List Card),
    cardLoop fetchInfo k folders cards =
      cards ++ (folders.enumFrom k).filterMap (fun p =>
        (fetchInfo p.1 p.2).map (albumCard p.2)) := by
  intro folders
  induction folders with
  | nil => intro k cards; simp [cardLoop]
  | cons folder rest ih =>
    intro k cards
    cases h : fetchInfo k folder with
    | none => simp [cardLoop, List.enumFrom, List.filterMap_cons, h, ih]
    | some infoData => simp [cardLoop, List.enumFrom, List.filterMap_cons, h, ih]

theorem length_filterMap_add_countP_isNone {α β : Type} (f : α → Option β) : ∀ (l : List α),
    (l.filterMap f).length + l.countP (fun a => (f a).isNone) = l.length := by
  intro l
  induction l with
  | nil => simp
  | cons a l ih =>
    cases h : f a with
    | none =>
      simp only [List.filterMap_cons, h, List.countP_cons, Option.isNone_none, if_true,
        List.length_cons]
      omega
    | some b =>
      simp only [List.filterMap_cons, h, List.countP_cons, Option.isNone_some, List.length_cons,
        Bool.false_eq_true, if_false]
      omega

theorem map_folder_filterMap (fetchInfo : Nat → Str → Option AlbumInfo) :
    ∀ (l : List (Nat × Str)),
    (l.filterMap (fun p => (fetchInfo p.1 p.2).map (albumCard p.2))).map Card.folder =
      (l.filter (fun p => (fetchInfo p.1 p.2).isSome)).map Prod.snd := by
  intro l
  induction l with
  | nil => rfl
  | cons p l ih =>
    cases hp : fetchInfo p.1 p.2 with
    | none => simp [List.filterMap_cons, List.filter_cons, hp, ih]
    | some info => simp [List.filterMap_cons, List.filter_cons, hp, ih, albumCard]

/-- C4: for every sequence of candidate album folders and every outcome of each folder's
`info.json` fetch, the card loop of `displayAlbums` produces exactly one card for each
candidate whose fetch succeeded and none for a candidate whose fetch failed, in the
candidates' order; a failure does not stop the folders after it: the number of cards plus
the number of failed fetches is the number of candidates, so one failure among four
candidates gives exactly three cards. -/
theorem displayAlbums_one_card_per_success (fetchInfo : Nat → Str → Option AlbumInfo)
    (folders : List Str) :
    cardLoop fetchInfo 0 folders [] =
      folders.enum.filterMap (fun p => (fetchInfo p.1 p.2).map (albumCard p.2)) ∧
    (cardLoop fetchInfo 0 folders []).map Card.folder =
      (folders.enum.filter (fun p => (fetchInfo p.1 p.2).isSome)).map Prod.snd ∧
    (cardLoop fetchInfo 0 folders []).length +
      folders.enum.countP (fun p => (fetchInfo p.1 p.2).isNone) = folders.length ∧
    (folders.length = 4 → folders.enum.countP (fun p => (fetchInfo p.1 p.2).isNone) = 1 →
      (cardLoop fetchInfo 0 folders []).length = 3) ∧
    (∀ hrefs : List Str, displayAlbums (some hrefs) fetchInfo =
      CardView.cards (cardLoop fetchInfo 0 (collectAlbumFolders hrefs []) [])) := by
  have h := cardLoop_eq fetchInfo folders 0 []
  rw [List.nil_append] at h
  have hlen := length_filterMap_add_countP_isNone (fun p : Nat × Str =>
    (fetchInfo p.1 p.2).map (albumCard p.2)) folders.enum
  simp only [Option.isNone_map', List.enum_length] at hlen
  have hlen' : (cardLoop fetchInfo 0 folders []).length +
      folders.enum.countP (fun p => (fetchInfo p.1 p.2).isNone) = folders.length := by
    rw [h]; exact hlen
  refine ⟨h, ?_, hlen', ?_, fun _ => rfl⟩
  · rw [h]
    exact map_folder_filterMap fetchInfo folders.enum
  · intro h4 h1
    omega

/-- Witness for C4: four candidates, the fetch for the second one fails. -/
theorem displayAlbums_one_card_per_success_witness :
    (cardLoop (fun k _ => if k = 1 then none else some { title := [], description := [] }) 0
      ["ncs".toList, "cs".toList, "rock".toList, "jazz".toList] []).length = 3 :=
  (displayAlbums_one_card_per_success
    (fun k _ => if k = 1 then none else some { title := [], description := [] })
    ["ncs".toList, "cs".toList, "rock".toList, "jazz".toList]).2.2.2.1 (by decide) (by decide)

/-- C10: the album filter accepts the reference of the listing itself: for the reference
`http://localhost:3000/spotify/songs/` the test of line 157 holds (four non-empty path
pieces) and the folder name `songs` is pushed to the candidates. -/
theorem albumFilter_accepts_listing_root :
    isAlbumHref "http://localhost:3000/spotify/songs/".toList = true ∧
    (pathPieces "http://localhost:3000/spotify/songs/".toList).length = 4 ∧
    collectAlbumFolders ["http://localhost:3000/spotify/songs/".toList] [] =
      ["songs".toList] := by
  decide

/-! ## Failure of the listing request and boundary clicks -/

/-- C1: when the listing request fails `getSongs` returns the empty sequence but leaves
the global `songs` as it was: after loading `spotify/songs/ncs` (one track `a.mp3`) a
failed load of `spotify/songs/cs` keeps `songs = ["a.mp3"]` with the current folder set to
`spotify/songs/cs`, and the card click handler then loads `/spotify/songs/cs/a.mp3`. -/
theorem getSongs_failure_keeps_previous_songs :
    (∀ (st : Player) (folderPath : Str),
      (getSongs st folderPath none).1 = [] ∧
      (getSongs st folderPath none).2.songs = st.songs ∧
      (getSongs st folderPath none).2.currentFolder = folderPath) ∧
    (getSongs examplePlayer "spotify/songs/cs".toList none).2.songs = ["a.mp3".toList] ∧
    (cardClick examplePlayer "cs".toList none).currentSong.src =
      "/spotify/songs/cs/a.mp3".toList := by
  refine ⟨fun st folderPath => ⟨rfl, rfl, rfl⟩, by decide, by decide⟩

/-- C2: at the boundary the `next` and `previous` handlers pause a playing track: with
the single track `a.mp3` current (both first and last) and playing, after either click the
audio src is the same but the element is paused, and the play button still shows the
pause icon (in a document served from `http://localhost:3000`). -/
theorem boundary_click_pauses_playing_track :
    examplePlayer.currentSong.paused = false ∧
    (nextClick exampleHost examplePlayer).currentSong.src = examplePlayer.currentSong.src ∧
    (nextClick exampleHost examplePlayer).currentSong.paused = true ∧
    (nextClick exampleHost examplePlayer).playIcon = "img/pause.svg" ∧
    (previousClick exampleHost examplePlayer).currentSong.src =
      examplePlayer.currentSong.src ∧
    (previousClick exampleHost examplePlayer).currentSong.paused = true ∧
    (previousClick exampleHost examplePlayer).playIcon = "img/pause.svg" := by
  decide

/-- Witness for C8 (amended): in a document served from `http://localhost:3000` the
second of three tracks is current; `next` moves to the third and `previous` to the first,
both playing. -/
theorem next_previous_move_by_one_witness :
    ((nextClick exampleHost exampleAlbumPlayer).currentSong.src =
        "/spotify/songs/ncs/c.mp3".toList ∧
      (nextClick exampleHost exampleAlbumPlayer).currentSong.paused = false ∧
      JS.indexOf (nextClick exampleHost exampleAlbumPlayer).songs
        (getCurrentSongFilename exampleHost (nextClick exampleHost exampleAlbumPlayer)) = 2) ∧
    ((previousClick exampleHost exampleAlbumPlayer).currentSong.src =
        "/spotify/songs/ncs/a.mp3".toList ∧
      (previousClick exampleHost exampleAlbumPlayer).currentSong.paused = false ∧
      JS.indexOf (previousClick exampleHost exampleAlbumPlayer).songs
        (getCurrentSongFilename exampleHost (previousClick exampleHost exampleAlbumPlayer))
          = 0) :=
  have h := next_previous_move_by_one exampleHost exampleAlbumPlayer 1 (by decide) (by decide)
    (by decide) (by decide)
  ⟨h.1 (by decide), h.2.1 (by decide)⟩
